import Mathlib

/-!
# Verification of the MusicMill phrase-analysis core

A shallow embedding in Lean 4 of the phrase/segment boundary detector
(`scripts/analyze_library.py`, `detect_phrases_and_segments` and
`classify_segment`) and of the compatibility-graph builder
(`scripts/build_phrase_graph.py`: the four sub-score functions,
`compute_link_weight`, `suggest_transition`, `extract_phrases_from_analysis`
and `compute_all_links`), together with theorems settling the frozen claims
about those functions.

Modelling conventions:
* Python floats are modelled as rationals (`ℚ`); all score branches are
  comparisons and constant returns, so no rounding behaviour is relevant.
* External feature extraction (librosa calls producing the onset-strength
  envelope and its peak times) is out of scope of the specified core; the
  detector is therefore parameterised by the list of novelty-peak times the
  source computes from the envelope, and by the track duration (the only
  use the source makes of the raw audio array besides that envelope).
* `x / 0 = 0` in `ℚ`; every division in the embedded code is guarded in the
  source (or only evaluated on inputs where the divisor is nonzero in the
  source's actual runs), as noted at each site.
-/

attribute [local semireducible] Rat.mul Rat.inv Rat.add Rat.sub Rat.ofScientific

namespace MusicMill

/-! ## Configuration constants (`build_phrase_graph.py`) -/

def MIN_LINK_WEIGHT : ℚ := 3/10
def MAX_LINKS_PER_PHRASE : ℕ := 20
def TEMPO_EXACT_THRESHOLD : ℚ := 5/100
def TEMPO_HALF_DOUBLE_THRESHOLD : ℚ := 1/10

def KEY_CIRCLE : List String :=
  ["C", "G", "D", "A", "E", "B", "F#", "Db", "Ab", "Eb", "Bb", "F"]

def KEY_NAMES : List String :=
  ["C", "C#", "D", "D#", "E", "F"] ++ ["F#", "G", "G#", "A", "A#", "B"]

/-! ## Key compatibility (`normalize_key`, `key_distance`, `compute_key_score`) -/

/-- Python `str.upper()`, modelled character-wise (key names are ASCII). -/
def upperStr (s : String) : String := ⟨s.data.map Char.toUpper⟩

/-- Python `str.strip()`: drop leading and trailing whitespace. -/
def stripStr (s : String) : String :=
  ⟨((s.data.dropWhile Char.isWhitespace).reverse.dropWhile Char.isWhitespace).reverse⟩

/-- The string-level part of `normalize_key`: upper-case, then rewrite the
enharmonic flat spellings to sharps.  The source's two final `return key`
statements coincide, so the function returns the upper-cased key whenever no
enharmonic rule fires. -/
def normalizeKeyStr (key : String) : String :=
  let k := upperStr (stripStr key)
  if k = "DB" then "C#"
  else if k = "EB" then "D#"
  else if k = "GB" then "F#"
  else if k = "AB" then "G#"
  else if k = "BB" then "A#"
  else k

/-- `normalize_key` on the optional key: Python's `if not key` treats both
`None` and the empty string as missing. -/
def normalize_key (key : Option String) : Option String :=
  match key with
  | none => none
  | some s => if s = "" then none else some (normalizeKeyStr s)

/-- Python truthiness test `not key` for an optional string. -/
def isBlank : Option String → Bool
  | none => true
  | some s => s = ""

/-- Index lookup used by `key_distance`:
`KEY_CIRCLE.index(k) if k in KEY_CIRCLE else KEY_NAMES.index(k)`, with the
`ValueError` of a failed second lookup modelled as `none`. -/
def keyIndex (k : String) : Option ℕ :=
  match KEY_CIRCLE.findIdx? (· = k) with
  | some i => some i
  | none => KEY_NAMES.findIdx? (· = k)

/-- `key_distance`: distance between two keys, `3` for missing/unknown keys,
`0` for equal normalized keys, otherwise `min d (12 - d)` of the looked-up
indices. -/
def key_distance (key1 key2 : Option String) : ℕ :=
  if isBlank key1 ∨ isBlank key2 then 3
  else
    let k1 := normalizeKeyStr (key1.getD "")
    let k2 := normalizeKeyStr (key2.getD "")
    if k1 = k2 then 0
    else
      match keyIndex k1, keyIndex k2 with
      | some i1, some i2 =>
        let dist := ((i1 : ℤ) - (i2 : ℤ)).natAbs
        min dist (12 - dist)
      | _, _ => 3

/-- `compute_key_score`: table lookup by circle distance capped at 6. -/
def compute_key_score (key1 key2 : Option String) : ℚ :=
  let dist := key_distance key1 key2
  [(1 : ℚ), 9/10, 8/10, 6/10, 4/10, 2/10, 1/10].getD (min dist 6) 0

/-! ## Tempo compatibility (`compute_tempo_score`) -/

def compute_tempo_score (tempo1 tempo2 : ℚ) : ℚ :=
  if tempo1 ≤ 0 ∨ tempo2 ≤ 0 then 1/2
  else
    let ratio := tempo1 / tempo2
    if |ratio - 1| ≤ TEMPO_EXACT_THRESHOLD then 1
    else if |ratio - 2| ≤ TEMPO_HALF_DOUBLE_THRESHOLD then 85/100
    else if |ratio - 1/2| ≤ TEMPO_HALF_DOUBLE_THRESHOLD then 85/100
    else if |ratio - 1| ≤ 10/100 then 8/10
    else if |ratio - 1| ≤ 20/100 then 1/2
    else 2/10

/-! ## Energy compatibility (`compute_energy_score`) -/

def compute_energy_score (energy1 energy2 : ℚ) : ℚ :=
  let diff := energy2 - energy1
  if |diff| ≤ 1/10 then 85/100
  else if 1/10 < diff ∧ diff ≤ 3/10 then 9/10
  else if diff > 3/10 then 1/2
  else if -(3/10) ≤ diff ∧ diff < -(1/10) then 75/100
  else if diff < -(3/10) then 4/10
  else 6/10

/-! ## Spectral compatibility (`compute_spectral_score`) -/

def compute_spectral_score (centroid1 centroid2 : ℚ) : ℚ :=
  if centroid1 ≤ 0 ∨ centroid2 ≤ 0 then 1/2
  else
    let ratio := max centroid1 centroid2 / min centroid1 centroid2
    if ratio < 12/10 then 1
    else if ratio < 15/10 then 8/10
    else if ratio < 2 then 6/10
    else 4/10

/-! ## Data model (`PhraseLink`, `PhraseNode`) -/

structure PhraseLink where
  targetId : ℕ
  weight : ℚ
  isOriginalSequence : Bool
  suggestedTransition : String
  tempoScore : ℚ
  keyScore : ℚ
  energyScore : ℚ
  spectralScore : ℚ
  deriving DecidableEq, Repr

/-- `PhraseNode`: the phrase record built by `extract_phrases_from_analysis`.
The random `uuid4` identifier is modelled as a natural number.  The optional
`waveform` field is display-only (out of scope of the analysis core) and is
omitted. -/
structure PhraseNode where
  id : ℕ
  sourceTrack : String
  sourceTrackName : String
  trackIndex : ℕ
  audioFile : String
  tempo : ℚ
  key : Option String
  energy : ℚ
  spectralCentroid : ℚ
  segmentType : String
  duration : ℚ
  startTime : ℚ
  endTime : ℚ
  beats : List ℚ
  downbeats : List ℚ
  links : List PhraseLink
  deriving DecidableEq, Repr

/-- The four component scores returned by `compute_link_weight` alongside the
overall weight (the Python `scores` dict). -/
structure LinkScores where
  tempo : ℚ
  key : ℚ
  energy : ℚ
  spectral : ℚ
  deriving DecidableEq, Repr

/-! ## Overall compatibility (`compute_link_weight`, `suggest_transition`) -/

def compute_link_weight (phrase1 phrase2 : PhraseNode) : ℚ × LinkScores :=
  let tempo_score := compute_tempo_score phrase1.tempo phrase2.tempo
  let key_score := compute_key_score phrase1.key phrase2.key
  let energy_score := compute_energy_score phrase1.energy phrase2.energy
  let spectral_score := compute_spectral_score phrase1.spectralCentroid phrase2.spectralCentroid
  let weight :=
    tempo_score * (35/100) +
    key_score * (25/100) +
    energy_score * (25/100) +
    spectral_score * (15/100)
  (weight, ⟨tempo_score, key_score, energy_score, spectral_score⟩)

def suggest_transition (weight energy_diff : ℚ) : String :=
  if weight > 8/10 then "crossfade"
  else if weight > 6/10 then "eqSwap"
  else if weight > 4/10 ∧ |energy_diff| > 3/10 then "filter"
  else "cut"

/-! ## Phrase extraction (`extract_phrases_from_analysis`) -/

/-- One entry of a track's `segments` list as consumed by the graph builder
(dict keys `start`, `end`, `type`, `energy`; `end` is a Lean keyword and is
rendered as `stop`). -/
structure SegmentRec where
  start : ℚ
  stop : ℚ
  type : String
  energy : ℚ
  deriving DecidableEq, Repr

/-- One track record of the analysis file, restricted to the fields the
extractor reads. -/
structure TrackRec where
  path : String
  name : String
  tempo : ℚ
  key : Option String
  spectralCentroid : ℚ
  segments : List SegmentRec
  beats : List ℚ
  downbeats : List ℚ
  deriving DecidableEq, Repr

/-- The per-track body of `extract_phrases_from_analysis`: one `PhraseNode`
per segment of positive duration, indexed by the segment's position in the
original list.  `freshId` models the `uuid4` generator (applied to the
enumeration index). -/
def extractTrackPhrases (freshId : ℕ → ℕ) (track : TrackRec) : List PhraseNode :=
  track.segments.enum.filterMap fun (phrase_index, segment) =>
    let start := segment.start
    let stop := segment.stop
    let duration := stop - start
    if duration ≤ 0 then none
    else some
      { id := freshId phrase_index
        sourceTrack := track.path
        sourceTrackName := track.name
        trackIndex := phrase_index
        audioFile := track.path
        tempo := track.tempo
        key := track.key
        energy := segment.energy
        spectralCentroid := track.spectralCentroid
        segmentType := segment.type
        duration := duration
        startTime := start
        endTime := stop
        beats := (track.beats.filter fun b => start ≤ b ∧ b < stop).map (· - start)
        downbeats := (track.downbeats.filter fun b => start ≤ b ∧ b < stop).map (· - start)
        links := [] }

/-! ## Link computation (`compute_all_links`) -/

/-- Stable sort key used by `compute_all_links`:
`(-l.isOriginalSequence, -l.weight)` compared lexicographically. -/
def linkKey (l : PhraseLink) : ℚ × ℚ :=
  (-(if l.isOriginalSequence then 1 else 0), -l.weight)

/-- The (total, transitive) comparison relation of the Python stable sort. -/
def linkLE (a b : PhraseLink) : Prop :=
  (linkKey a).1 < (linkKey b).1 ∨
    ((linkKey a).1 = (linkKey b).1 ∧ (linkKey a).2 ≤ (linkKey b).2)

instance : DecidableRel linkLE := fun a b => by unfold linkLE; infer_instance

instance : IsTotal PhraseLink linkLE where
  total a b := by
    unfold linkLE
    rcases lt_trichotomy (linkKey a).1 (linkKey b).1 with h | h | h
    · exact Or.inl (Or.inl h)
    · rcases le_total (linkKey a).2 (linkKey b).2 with h2 | h2
      · exact Or.inl (Or.inr ⟨h, h2⟩)
      · exact Or.inr (Or.inr ⟨h.symm, h2⟩)
    · exact Or.inr (Or.inl h)

instance : IsTrans PhraseLink linkLE where
  trans a b c hab hbc := by
    unfold linkLE at *
    rcases hab with h | ⟨he, h2⟩ <;> rcases hbc with h' | ⟨he', h2'⟩
    · exact Or.inl (h.trans h')
    · exact Or.inl (he' ▸ h)
    · exact Or.inl (he ▸ h')
    · exact Or.inr ⟨he.trans he', h2.trans h2'⟩

/-- The grouping `by_track[track]` (insertion order of `phrases`) followed by
the stable in-place sort by `trackIndex`. -/
def trackPhrasesFor (phrases : List PhraseNode) (track : String) : List PhraseNode :=
  List.insertionSort (fun a b => a.trackIndex ≤ b.trackIndex)
    (phrases.filter fun p => p.sourceTrack = track)

/-- The inner scan of `compute_all_links` that decides whether `phrase2` is
the original-sequence successor of the phrase with id `pid`: at the first
position holding `pid` that has a successor, return that successor's id
(the loop `break`s there); a match at the last position falls through with
no successor. -/
def findSucc (pid : ℕ) : List PhraseNode → Option ℕ
  | a :: b :: rest => if a.id = pid then some b.id else findSucc pid (b :: rest)
  | _ => none

/-- The body of the inner loop of `compute_all_links`: the candidate link
from `phrase1` to `phrase2` (`none` when the pair is a self-link or falls
below `MIN_LINK_WEIGHT` without being the original sequence), given the
sorted track-phrase list used for the original-sequence scan. -/
def candidateLink (track_phrases : List PhraseNode) (phrase1 phrase2 : PhraseNode) :
    Option PhraseLink :=
  if phrase1.id = phrase2.id then none
  else
    let is_original_seq : Bool :=
      match findSucc phrase1.id track_phrases with
      | some nid => nid = phrase2.id
      | none => false
    let ws := compute_link_weight phrase1 phrase2
    if is_original_seq ∨ ws.1 ≥ MIN_LINK_WEIGHT then
      some
        { targetId := phrase2.id
          weight := ws.1
          isOriginalSequence := is_original_seq
          suggestedTransition := suggest_transition ws.1 (phrase2.energy - phrase1.energy)
          tempoScore := ws.2.tempo
          keyScore := ws.2.key
          energyScore := ws.2.energy
          spectralScore := ws.2.spectral }
    else none

/-- The body of the outer loop of `compute_all_links` for one phrase:
candidate links against every other phrase, kept when original-sequence or
above `MIN_LINK_WEIGHT`, stably sorted by `(-isOriginalSequence, -weight)`
and truncated to `MAX_LINKS_PER_PHRASE`. -/
def computeLinksFor (phrases : List PhraseNode) (phrase1 : PhraseNode) : List PhraseLink :=
  let track_phrases := trackPhrasesFor phrases phrase1.sourceTrack
  let candidate_links := phrases.filterMap (candidateLink track_phrases phrase1)
  (List.insertionSort linkLE candidate_links).take MAX_LINKS_PER_PHRASE

/-- `compute_all_links`: populate every phrase's `links` field.  The source
mutates `phrase1.links` in place, but no link computation ever reads a
`links` field, so the pass is a pure map. -/
def compute_all_links (phrases : List PhraseNode) : List PhraseNode :=
  phrases.map fun p => { p with links := computeLinksFor phrases p }

/-! ## Boundary detection (`analyze_library.py`, `detect_phrases_and_segments`)

The detector consumes the track duration, the beat-time list, the RMS energy
frames and the novelty-peak times.  The peak times are computed in the source
from the librosa onset-strength envelope of the raw audio (external feature
extraction); the detector below is parameterised by that peak list. -/

/-- `HOP_LENGTH` frame hop of `analyze_library.py`. -/
def HOP_LENGTH : ℚ := 512

/-- Numpy slicing `xs[::n]`: every `n`-th element starting at index 0. -/
def everyNth (n : ℕ) (xs : List ℚ) : List ℚ :=
  (xs.enum.filter fun p => p.1 % n = 0).map Prod.snd

/-- `np.diff`: consecutive differences. -/
def diffsOf (xs : List ℚ) : List ℚ :=
  (xs.zip xs.tail).map fun p => p.2 - p.1

/-- `np.mean` (`np.mean([])` is only reached with a guard in the source;
`ℚ` gives `0` there). -/
def listMean (xs : List ℚ) : ℚ := xs.sum / xs.length

/-- `np.var`: mean squared deviation from the mean. -/
def listVar (xs : List ℚ) : ℚ :=
  let m := listMean xs
  listMean (xs.map fun x => (x - m) ^ 2)

/-- `xs[np.argmin(np.abs(xs - t))]`: value of the first closest element
(`np.argmin` returns the first minimising index).  Only called on nonempty
lists in the source. -/
def nearestIn (xs : List ℚ) (t : ℚ) : ℚ :=
  match xs with
  | [] => 0
  | x :: rest => rest.foldl (fun best c => if |c - t| < |best - t| then c else best) x

/-- Python list slice `xs[i:j]` for `0 ≤ i, j`. -/
def sliceList (xs : List ℚ) (i j : ℕ) : List ℚ := (xs.drop i).take (j - i)

/-- The merge step for one novelty peak: add it when it is farther than 2 s
from every boundary collected so far, snapping to the nearest downbeat when
within 1 s of it.  (The source stores boundaries in a Python `set`; a list
with possible duplicates is equivalent here because only membership-style
distance tests and a final `sorted(set(...))` consume it.) -/
def addPeak (downbeats : List ℚ) (bs : List ℚ) (peak_time : ℚ) : List ℚ :=
  if bs.all fun b => |peak_time - b| > 2 then
    if downbeats.length > 0 then
      let nearest_downbeat := nearestIn downbeats peak_time
      if |nearest_downbeat - peak_time| < 1 then bs ++ [nearest_downbeat]
      else bs ++ [peak_time]
    else bs ++ [peak_time]
  else bs

/-- `if len(phrase_times) == 0 or phrase_times[0] > 2.0: [0.0] + phrase_times`. -/
def ensureStart (pt : List ℚ) : List ℚ :=
  match pt with
  | [] => [0]
  | x :: _ => if x > 2 then 0 :: pt else pt

/-- `if phrase_times[-1] < duration - 2.0: phrase_times.append(duration)`. -/
def ensureEnd (duration : ℚ) (pt : List ℚ) : List ℚ :=
  match pt.getLast? with
  | none => pt
  | some x => if x < duration - 2 then pt ++ [duration] else pt

/-- Snap one split point to the nearest downbeat when within 2 s of it. -/
def snapSplit (downbeats : List ℚ) (split_time : ℚ) : ℚ :=
  if downbeats.length > 0 then
    let nearest := nearestIn downbeats split_time
    if |nearest - split_time| < 2 then nearest else split_time
  else split_time

/-- The intermediate boundaries inserted for one gap: when the gap exceeds
30 s, `num_splits = int(gap / 15.0)` snapped split points at
`start + gap * j / num_splits` for `j = 1 .. num_splits - 1`. -/
def gapSplits (downbeats : List ℚ) (x y : ℚ) : List ℚ :=
  let gap := y - x
  if gap > 30 then
    let num_splits : ℕ := (gap / 15).floor.toNat
    (List.range' 1 (num_splits - 1)).map fun j : ℕ =>
      snapSplit downbeats (x + gap * (j : ℚ) / (num_splits : ℚ))
  else []

/-- The post-processing loop over consecutive boundary pairs, appending each
boundary followed by the splits of the gap it opens. -/
def postprocessTimes (downbeats : List ℚ) : List ℚ → List ℚ
  | [] => []
  | [x] => [x]
  | x :: y :: rest => (x :: gapSplits downbeats x y) ++ postprocessTimes downbeats (y :: rest)

/-- `phrase_times = sorted(set(final_phrase_times))`. -/
def postprocessFinal (downbeats pt : List ℚ) : List ℚ :=
  List.insertionSort (· ≤ ·) (postprocessTimes downbeats pt).dedup

/-- The downbeat list of `detect_phrases_and_segments`: every 4th beat,
falling back to all beats, then to `[0.0]`. -/
def downbeatsOf (beat_times : List ℚ) : List ℚ :=
  if beat_times.length ≥ 4 then everyNth 4 beat_times
  else if beat_times.length > 0 then beat_times else [0]

/-- The tempo-adaptive bar grouping (`bars_per_phrase`). -/
def barsPerPhraseOf (beat_times : List ℚ) : ℕ :=
  if beat_times.length ≥ 8 then
    let avg_beat_interval := listMean (diffsOf beat_times)
    let tempo_estimate := if avg_beat_interval > 0 then 60 / avg_beat_interval else 120
    if tempo_estimate > 150 then 16
    else if tempo_estimate > 120 then 8
    else 8
  else 8

/-- The boundary-time computation of `detect_phrases_and_segments`:
downbeats, tempo-adaptive bar grouping, merge with novelty peaks, endpoint
insertion and the over-30 s gap subdivision. -/
def detectPhraseTimes (duration : ℚ) (beat_times novelty_peaks : List ℚ) : List ℚ :=
  let downbeats := downbeatsOf beat_times
  let bars_per_phrase := barsPerPhraseOf beat_times
  let phrase_downbeats := everyNth bars_per_phrase downbeats
  let all_boundaries := novelty_peaks.foldl (addPeak downbeats) phrase_downbeats
  let phrase_times := List.insertionSort (· ≤ ·) all_boundaries.dedup
  let phrase_times := ensureStart phrase_times
  let phrase_times := ensureEnd duration phrase_times
  postprocessFinal downbeats phrase_times

/-- `classify_segment` of `analyze_library.py`.  The divisions are by the
track duration (positive whenever a segment exists in the source's runs) and
by `total_energy_mean + 1e-6`. -/
def classify_segment (start stop duration energy energy_variance total_energy_mean : ℚ) :
    String :=
  let position_ratio := start / duration
  let energy_ratio := energy / (total_energy_mean + 1 / 1000000)
  let _segment_length := stop - start
  if position_ratio < 1/10 then "intro"
  else if position_ratio > 9/10 then "outro"
  else if energy_ratio < 6/10 ∧ energy_variance < 1/100 then "breakdown"
  else if energy_ratio > 13/10 then "drop"
  else if energy_ratio > 1 then "chorus"
  else "verse"

/-- One detected segment (dict keys `start`, `end`, `type`, `energy`,
`energyVariance`; `end` is rendered `stop`). -/
structure Segment where
  start : ℚ
  stop : ℚ
  type : String
  energy : ℚ
  energyVariance : ℚ
  deriving DecidableEq, Repr

/-- The segment built for one consecutive boundary pair: RMS frames sliced by
`int(t * sr / HOP_LENGTH)`, mean/variance with the `0.5`/`0.0` fallback for
an empty slice, and the heuristic classification. -/
def mkSegment (rms : List ℚ) (sr duration : ℚ) (start stop : ℚ) : Segment :=
  let start_frame := (start * sr / HOP_LENGTH).floor.toNat
  let end_frame := (stop * sr / HOP_LENGTH).floor.toNat
  let segment_rms :=
    if end_frame ≤ rms.length then sliceList rms start_frame end_frame
    else rms.drop start_frame
  let avg_energy := if segment_rms.length > 0 then listMean segment_rms else 1/2
  let energy_variance := if segment_rms.length > 0 then listVar segment_rms else 0
  { start := start
    stop := stop
    type := classify_segment start stop duration avg_energy energy_variance (listMean rms)
    energy := avg_energy
    energyVariance := energy_variance }

/-- The `for i in range(len(phrase_times) - 1)` loop: one segment per
consecutive pair of boundary times. -/
def zipSegs (rms : List ℚ) (sr duration : ℚ) (pts : List ℚ) : List Segment :=
  (pts.zip pts.tail).map fun p => mkSegment rms sr duration p.1 p.2

/-- `detect_phrases_and_segments`, segments part: one segment per consecutive
pair of final boundary times. -/
def detectSegments (duration : ℚ) (beat_times novelty_peaks rms : List ℚ) (sr : ℚ) :
    List Segment :=
  zipSegs rms sr duration (detectPhraseTimes duration beat_times novelty_peaks)

/-! ## Helper lemmas -/

theorem key_distance_comm (key1 key2 : Option String) :
    key_distance key1 key2 = key_distance key2 key1 := by
  unfold key_distance
  by_cases hb : isBlank key1 = true ∨ isBlank key2 = true
  · rw [if_pos hb, if_pos (Or.symm hb)]
  · rw [if_neg hb, if_neg (fun h => hb (Or.symm h))]
    by_cases he : normalizeKeyStr (key1.getD "") = normalizeKeyStr (key2.getD "")
    · rw [if_pos he, if_pos he.symm]
    · rw [if_neg he, if_neg (fun h => he h.symm)]
      rcases h1 : keyIndex (normalizeKeyStr (key1.getD "")) with _ | i1 <;>
        rcases h2 : keyIndex (normalizeKeyStr (key2.getD "")) with _ | i2 <;>
        simp only []
      have : ((i1 : ℤ) - i2).natAbs = ((i2 : ℤ) - i1).natAbs := by omega
      rw [this]

theorem compute_spectral_score_comm (c1 c2 : ℚ) :
    compute_spectral_score c1 c2 = compute_spectral_score c2 c1 := by
  unfold compute_spectral_score
  by_cases h : c1 ≤ 0 ∨ c2 ≤ 0
  · rw [if_pos h, if_pos (Or.symm h)]
  · rw [if_neg h, if_neg (fun hc => h (Or.symm hc)), max_comm, min_comm]

theorem compute_tempo_score_bounds (t1 t2 : ℚ) :
    2/10 ≤ compute_tempo_score t1 t2 ∧ compute_tempo_score t1 t2 ≤ 1 := by
  simp only [compute_tempo_score]
  split_ifs <;> norm_num

theorem compute_key_score_bounds (k1 k2 : Option String) :
    1/10 ≤ compute_key_score k1 k2 ∧ compute_key_score k1 k2 ≤ 1 := by
  simp only [compute_key_score]
  generalize hmin : min (key_distance k1 k2) 6 = i
  have h : i ≤ 6 := hmin ▸ min_le_right _ _
  interval_cases i <;> norm_num [List.getD]

theorem compute_energy_score_bounds (e1 e2 : ℚ) :
    4/10 ≤ compute_energy_score e1 e2 ∧ compute_energy_score e1 e2 ≤ 9/10 := by
  simp only [compute_energy_score]
  split_ifs <;> norm_num

theorem compute_spectral_score_bounds (c1 c2 : ℚ) :
    4/10 ≤ compute_spectral_score c1 c2 ∧ compute_spectral_score c1 c2 ≤ 1 := by
  simp only [compute_spectral_score]
  split_ifs <;> norm_num

/-! ## Claim theorems -/

/-- C3 (code evaluation): at the failing input `('C', 'Db')` the code returns
0.9, not the distance-5 table entry 0.2 demanded by the circle-of-fifths
specification: `normalize_key` rewrites `Db` to `C#`, which is absent from
`KEY_CIRCLE` (that list spells it `Db`), so the lookup falls back to the
chromatic `KEY_NAMES` index 1 and the computed distance is 1. -/
theorem C3_key_score_db : compute_key_score (some "C") (some "Db") = 9/10 ∧
    (9/10 : ℚ) ≠ 2/10 := by decide

/-- C4 counterexample: the energy sub-score is not symmetric — a gradual
build `(0.5, 0.7)` scores 0.9 while the reversed drop `(0.7, 0.5)` scores
0.75. -/
theorem C4_cex : compute_energy_score (5/10) (7/10) = 9/10 ∧
    compute_energy_score (7/10) (5/10) = 75/100 ∧
    compute_energy_score (5/10) (7/10) ≠ compute_energy_score (7/10) (5/10) := by decide

/-- C4 (amended): the key and spectral sub-scores are symmetric for all
inputs; the energy sub-score is not symmetric, as it distinguishes builds
from drops (see the counterexample).  No symmetry statement is made for the
tempo sub-score: its behaviour at ratio-branch boundaries depends on the
source's floating-point rounding, which the rational model does not
reproduce at those boundaries. -/
theorem C4_key_spectral_symmetric :
    (∀ k1 k2 : Option String, compute_key_score k1 k2 = compute_key_score k2 k1) ∧
    (∀ c1 c2 : ℚ, compute_spectral_score c1 c2 = compute_spectral_score c2 c1) := by
  refine ⟨fun k1 k2 => ?_, compute_spectral_score_comm⟩
  unfold compute_key_score
  rw [key_distance_comm]

/-- C6 counterexample: at `diff = energy2 − energy1 = −0.1` the first branch
`|diff| ≤ 0.1` fires and the score is 0.85, not the 0.6 fallback. -/
theorem C6_cex : (4/10 : ℚ) - 5/10 = -(1/10) ∧
    compute_energy_score (5/10) (4/10) = 85/100 ∧
    compute_energy_score (5/10) (4/10) ≠ 6/10 := by decide

/-- C6 (amended): `diff = −0.1` satisfies `|diff| ≤ 0.1` and scores 0.85, and
the 0.6 fallback branch is unreachable: the five preceding branches cover all
rational inputs. -/
theorem C6_energy_fallback (energy1 energy2 : ℚ) :
    compute_energy_score energy1 energy2 ≠ 6/10 ∧
    (energy2 - energy1 = -(1/10) → compute_energy_score energy1 energy2 = 85/100) := by
  simp only [compute_energy_score]
  constructor
  · split_ifs with h1 h2 h3 h4 h5 <;> try norm_num
    exfalso
    rw [not_le, lt_abs] at h1
    push_neg at h2 h3 h4 h5
    rcases h1 with h1 | h1
    · linarith [h2 h1]
    · linarith [h4 h5, h1]
  · intro hdiff
    rw [if_pos (by rw [hdiff, abs_le]; constructor <;> norm_num)]

/-- C6 witness: the amended statement at the concrete boundary input
`energy1 = 0.5`, `energy2 = 0.4`. -/
theorem C6_energy_fallback_w :
    compute_energy_score (5/10) (4/10) ≠ 6/10 ∧
    compute_energy_score (5/10) (4/10) = 85/100 :=
  ⟨(C6_energy_fallback (5/10) (4/10)).1,
   (C6_energy_fallback (5/10) (4/10)).2 (by norm_num)⟩

/-- C9 counterexample: for the unknown (missing) key the self-score is 0.6,
not 1.0 — `key_distance` returns the neutral distance 3 before ever comparing
the two (equal) arguments. -/
theorem C9_cex : compute_key_score none none = 6/10 ∧
    compute_key_score none none ≠ 1 := by decide

/-- C9 (amended): every known (non-empty) key scores 1.0 against itself; the
unknown key scores 0.6 against itself. -/
theorem C9_key_self (k : String) (hk : k ≠ "") :
    compute_key_score (some k) (some k) = 1 ∧ compute_key_score none none = 6/10 := by
  refine ⟨?_, by decide⟩
  simp [compute_key_score, key_distance, isBlank, hk]

/-- C9 witness: the amended statement at the concrete key `C`. -/
theorem C9_key_self_w :
    compute_key_score (some "C") (some "C") = 1 ∧ compute_key_score none none = 6/10 :=
  C9_key_self "C" (by decide)

/-- C10: each sub-score is bounded (tempo in [0.2, 1], key in [0.1, 1],
energy in [0.4, 0.9], spectral in [0.4, 1]), so the 0.35/0.25/0.25/0.15
weighted combination returned by `compute_link_weight` always lies in
[0.255, 0.975] for every pair of phrases. -/
theorem C10_weight_bounds :
    (∀ t1 t2 : ℚ, 2/10 ≤ compute_tempo_score t1 t2 ∧ compute_tempo_score t1 t2 ≤ 1) ∧
    (∀ k1 k2 : Option String,
      1/10 ≤ compute_key_score k1 k2 ∧ compute_key_score k1 k2 ≤ 1) ∧
    (∀ e1 e2 : ℚ, 4/10 ≤ compute_energy_score e1 e2 ∧ compute_energy_score e1 e2 ≤ 9/10) ∧
    (∀ c1 c2 : ℚ, 4/10 ≤ compute_spectral_score c1 c2 ∧ compute_spectral_score c1 c2 ≤ 1) ∧
    ∀ p1 p2 : PhraseNode,
      255/1000 ≤ (compute_link_weight p1 p2).1 ∧ (compute_link_weight p1 p2).1 ≤ 975/1000 := by
  refine ⟨compute_tempo_score_bounds, compute_key_score_bounds,
    compute_energy_score_bounds, compute_spectral_score_bounds, fun p1 p2 => ?_⟩
  obtain ⟨ht1, ht2⟩ := compute_tempo_score_bounds p1.tempo p2.tempo
  obtain ⟨hk1, hk2⟩ := compute_key_score_bounds p1.key p2.key
  obtain ⟨he1, he2⟩ := compute_energy_score_bounds p1.energy p2.energy
  obtain ⟨hs1, hs2⟩ := compute_spectral_score_bounds p1.spectralCentroid p2.spectralCentroid
  simp only [compute_link_weight]
  constructor <;> linarith

theorem length_filterMap_eq_countP {α β : Type} (f : α → Option β) :
    ∀ l : List α, (l.filterMap f).length = l.countP fun a => (f a).isSome
  | [] => rfl
  | a :: l => by
    rw [List.filterMap_cons, List.countP_cons]
    rcases hfa : f a with _ | b <;>
      simp [hfa, length_filterMap_eq_countP f l]

theorem countP_enumFrom {α : Type} (p : α → Bool) :
    ∀ (l : List α) (k : ℕ), (List.enumFrom k l).countP (fun q => p q.2) = l.countP p
  | [], _ => rfl
  | a :: l, k => by
    rw [List.enumFrom, List.countP_cons, List.countP_cons, countP_enumFrom p l (k + 1)]

/-- C8: phrase extraction keeps exactly the segments of positive duration
(`end − start > 0`), skipping the rest; in particular a segment list with one
zero-duration entry and otherwise positive-duration entries yields
`count(segments) − 1` phrase nodes. -/
theorem C8_extract_skips_degenerate (freshId : ℕ → ℕ) (track : TrackRec) :
    (extractTrackPhrases freshId track).length
        = track.segments.countP (fun s => !decide (s.stop - s.start ≤ 0)) ∧
    ∀ l1 z l2, track.segments = l1 ++ z :: l2 → z.start = z.stop →
      (∀ s ∈ l1, 0 < s.stop - s.start) → (∀ s ∈ l2, 0 < s.stop - s.start) →
      (extractTrackPhrases freshId track).length = track.segments.length - 1 := by
  have hlen : (extractTrackPhrases freshId track).length
      = track.segments.countP fun s => !decide (s.stop - s.start ≤ 0) := by
    unfold extractTrackPhrases
    rw [length_filterMap_eq_countP]
    have : (fun q : ℕ × SegmentRec =>
        (if q.2.stop - q.2.start ≤ 0 then none else some
          { id := freshId q.1
            sourceTrack := track.path
            sourceTrackName := track.name
            trackIndex := q.1
            audioFile := track.path
            tempo := track.tempo
            key := track.key
            energy := q.2.energy
            spectralCentroid := track.spectralCentroid
            segmentType := q.2.type
            duration := q.2.stop - q.2.start
            startTime := q.2.start
            endTime := q.2.stop
            beats := (track.beats.filter fun b => q.2.start ≤ b ∧ b < q.2.stop).map
              (· - q.2.start)
            downbeats := (track.downbeats.filter fun b => q.2.start ≤ b ∧ b < q.2.stop).map
              (· - q.2.start)
            links := [] } : Option PhraseNode).isSome)
        = fun q : ℕ × SegmentRec => !decide (q.2.stop - q.2.start ≤ 0) := by
      funext q
      split_ifs with h <;> simp [h]
    rw [List.countP_congr fun q _ => by rw [congrFun this q],
      show track.segments.enum = List.enumFrom 0 track.segments from rfl]
    exact countP_enumFrom (fun s => !decide (s.stop - s.start ≤ 0)) track.segments 0
  refine ⟨hlen, fun l1 z l2 hseg hz h1 h2 => ?_⟩
  rw [hlen, hseg, List.countP_append, List.countP_cons]
  have hc1 : l1.countP (fun s => !decide (s.stop - s.start ≤ 0)) = l1.length :=
    List.countP_eq_length.mpr fun s hs => by simp [not_le.mpr (h1 s hs)]
  have hc2 : l2.countP (fun s => !decide (s.stop - s.start ≤ 0)) = l2.length :=
    List.countP_eq_length.mpr fun s hs => by simp [not_le.mpr (h2 s hs)]
  have hcz : (!decide (z.stop - z.start ≤ 0)) = false := by
    simp [hz]
  rw [hc1, hc2, hcz]
  simp [List.length_append]

/-- C8 witness: a concrete three-segment track with one zero-duration entry
in the middle yields two phrase nodes. -/
theorem C8_extract_skips_degenerate_w :
    (extractTrackPhrases (fun i => i)
      { path := "t", name := "t", tempo := 120, key := some "C", spectralCentroid := 1000
        segments := [⟨0, 10, "verse", 1/2⟩, ⟨10, 10, "verse", 1/2⟩, ⟨10, 20, "verse", 1/2⟩]
        beats := [], downbeats := [] }).length
      = ([⟨0, 10, "verse", 1/2⟩, ⟨10, 10, "verse", 1/2⟩,
          (⟨10, 20, "verse", 1/2⟩ : SegmentRec)] : List SegmentRec).length - 1 :=
  (C8_extract_skips_degenerate (fun i => i) _).2
    [⟨0, 10, "verse", 1/2⟩] ⟨10, 10, "verse", 1/2⟩ [⟨10, 20, "verse", 1/2⟩]
    rfl rfl (by decide) (by decide)

theorem snapSplit_close (downbeats : List ℚ) (t : ℚ) :
    |snapSplit downbeats t - t| < 2 := by
  simp only [snapSplit]
  split_ifs <;> simp_all

/-- C5 counterexample: a 31-second gap is subdivided into 2 pieces
(3 boundary times), not the 3 pieces (4 boundary times) of `⌈31/15⌉`, and a
46-second gap into 3 pieces (4 boundary times), not 4 pieces. -/
theorem C5_cex :
    (postprocessFinal [0] [0, 31]).length = 3 ∧ (postprocessFinal [0] [0, 31]).length ≠ 4 ∧
    (postprocessFinal [0] [0, 46]).length = 4 ∧ (postprocessFinal [0] [0, 46]).length ≠ 5 := by
  decide

/-- C5 (amended): a gap `b − a > 30` between consecutive boundaries is
subdivided into `⌊gap/15⌋` equal pieces (the source computes
`num_splits = int(gap / 15.0)`, a floor), each split point snapped to the
nearest downbeat when within 2 s of it; the boundary list for the gap
therefore has `⌊gap/15⌋ + 1` entries. -/
theorem C5_gap_subdivision (downbeats : List ℚ) (a b : ℚ) (hgap : b - a > 30) :
    (postprocessFinal downbeats [a, b]).length = ((b - a) / 15).floor.toNat + 1 := by
  set gap : ℚ := b - a with hgapdef
  set n : ℕ := (gap / 15).floor.toNat with hn
  have hfl : (2 : ℤ) ≤ (gap / 15).floor := by
    rw [Rat.le_floor]
    push_cast
    rw [le_div_iff₀ (by norm_num : (0:ℚ) < 15)]
    linarith
  have hn2 : 2 ≤ n := by omega
  have hnz : ((n : ℤ)) = (gap / 15).floor := by
    rw [hn]
    exact Int.toNat_of_nonneg (by omega)
  have hnq : (0:ℚ) < (n : ℚ) := by
    have : (2:ℚ) ≤ (n:ℚ) := by exact_mod_cast hn2
    linarith
  have h15 : 15 * (n : ℚ) ≤ gap := by
    have hle : ((n : ℤ) : ℚ) ≤ gap / 15 := Rat.le_floor.mp (le_of_eq hnz)
    rw [le_div_iff₀ (by norm_num : (0:ℚ) < 15)] at hle
    push_cast at hle
    linarith
  set s : ℚ := gap / (n : ℚ) with hs
  have hsn : s * (n:ℚ) = gap := by
    rw [hs]
    field_simp
  have hstep : 15 ≤ s := by
    by_contra hcon
    push_neg at hcon
    nlinarith
  -- the raw and snapped split points
  set f : ℕ → ℚ := fun j => snapSplit downbeats (a + gap * j / n) with hf
  have hraw : ∀ j : ℕ, a + gap * j / n = a + j * s := by
    intro j
    rw [hs]
    ring
  have hsnap : ∀ j : ℕ, |f j - (a + j * s)| < 2 := by
    intro j
    rw [hf, ← hraw j]
    exact snapSplit_close _ _
  have hmono : ∀ j1 j2 : ℕ, j1 < j2 → f j1 < f j2 := by
    intro j1 j2 hlt
    have hj : (j1 : ℚ) + 1 ≤ (j2 : ℚ) := by exact_mod_cast hlt
    have h1 := abs_lt.mp (hsnap j1)
    have h2 := abs_lt.mp (hsnap j2)
    have hge : s ≤ ((j2 : ℚ) - j1) * s := by
      nlinarith [mul_nonneg (by linarith : (0:ℚ) ≤ (j2:ℚ) - j1 - 1)
        (by linarith : (0:ℚ) ≤ s)]
    nlinarith [h1.2, h2.1]
  have hlow : ∀ j : ℕ, 1 ≤ j → a < f j := by
    intro j hj
    have hjq : (1 : ℚ) ≤ (j : ℚ) := by exact_mod_cast hj
    have h1 := (abs_lt.mp (hsnap j)).1
    have hge : s ≤ (j : ℚ) * s := by
      nlinarith [mul_nonneg (by linarith : (0:ℚ) ≤ (j:ℚ) - 1) (by linarith : (0:ℚ) ≤ s)]
    nlinarith
  have hb : a + gap = b := by rw [hgapdef]; ring
  have hhigh : ∀ j : ℕ, j < n → f j < b := by
    intro j hjn
    have hjq : (j : ℚ) ≤ (n : ℚ) - 1 := by
      have : (j : ℚ) + 1 ≤ (n : ℚ) := by exact_mod_cast hjn
      linarith
    have h2 := (abs_lt.mp (hsnap j)).2
    have hle : (j : ℚ) * s ≤ ((n:ℚ) - 1) * s := by
      nlinarith [mul_nonneg (by linarith : (0:ℚ) ≤ (n:ℚ) - 1 - j)
        (by linarith : (0:ℚ) ≤ s)]
    nlinarith
  -- the boundary list for the two-element input
  have hpt : postprocessTimes downbeats [a, b]
      = (a :: gapSplits downbeats a b) ++ [b] := rfl
  have hgs : gapSplits downbeats a b = (List.range' 1 (n - 1)).map f := by
    unfold gapSplits
    rw [if_pos (show b - a > 30 from hgap)]
  set M : List ℚ := (a :: (List.range' 1 (n - 1)).map f) ++ [b] with hM
  have hMpt : postprocessTimes downbeats [a, b] = M := by
    rw [hpt, hgs]
  have hpw : M.Pairwise (· < ·) := by
    rw [hM, List.pairwise_append, List.pairwise_cons]
    refine ⟨⟨?_, List.pairwise_map.mpr ?_⟩, List.pairwise_singleton _ _, ?_⟩
    · intro x hx
      rcases List.mem_map.mp hx with ⟨j, hj, rfl⟩
      exact hlow j (List.mem_range'_1.mp hj).1
    · exact (List.pairwise_lt_range' 1 (n - 1)).imp fun h => hmono _ _ h
    · intro x hx y hy
      rw [List.mem_singleton] at hy
      subst hy
      rcases List.mem_cons.mp hx with rfl | hx'
      · linarith
      · rcases List.mem_map.mp hx' with ⟨j, hj, rfl⟩
        have := (List.mem_range'_1.mp hj).2
        exact hhigh j (by omega)
  have hnodup : M.Nodup := hpw.imp fun h => ne_of_lt h
  calc (postprocessFinal downbeats [a, b]).length
      = M.dedup.length := by
        unfold postprocessFinal
        rw [hMpt]
        exact (List.perm_insertionSort _ _).length_eq
    _ = M.length := by rw [List.Nodup.dedup hnodup]
    _ = n + 1 := by
        rw [hM]
        simp only [List.length_append, List.length_cons, List.length_map,
          List.length_range', List.length_singleton, List.length_nil]
        omega
    _ = ((b - a) / 15).floor.toNat + 1 := by
        rw [hn, hgapdef]

/-- C5 witness: applying the amended subdivision count to the concrete
31-second gap `[0, 31]` with a downbeat at 0. -/
theorem C5_gap_subdivision_w :
    (postprocessFinal [0] [(0 : ℚ), 31]).length = (((31 : ℚ) - 0) / 15).floor.toNat + 1 :=
  C5_gap_subdivision [0] 0 31 (by norm_num)

/-- C1 counterexample: a track of duration 20 whose first beat is at 1 s
produces a single segment `[1, 20)` — the segment list is contiguous and
non-overlapping but its union starts at 1, not at 0, because a first boundary
within 2 s of the start suppresses the insertion of a boundary at time 0. -/
theorem C1_cex :
    (detectSegments 20 [1, 2, 3, 4] [] [] 22050).map Segment.start = [1] ∧ (1 : ℚ) ≠ 0 := by
  decide

/-- C7 counterexample: a zero-beat track of duration 60 yields four segments
(the 60-second span is subdivided by the over-30 s rule), not the single
whole-track segment the claim demands. -/
theorem C7_cex :
    (detectSegments 60 [] [] [] 22050).length = 4 ∧
    (detectSegments 60 [] [] [] 22050).length ≠ 1 := by
  decide

/-- C7 (amended): a zero-beat track never fails: with no novelty peaks its
boundary set degrades to `{0}` — extended to `{0, duration}` only when
`duration > 2` — so for `2 < duration ≤ 30` the detector yields exactly one
whole-track segment `[0, duration)` (classified `intro`, since the position
rule fires at start 0), while `duration ≤ 2` (including zero-duration tracks)
yields no segment at all; longer durations are further subdivided by the
over-30 s rule. -/
theorem C7_zero_beat_single_segment (duration : ℚ) (rms : List ℚ) (sr : ℚ)
    (h30 : duration ≤ 30) :
    (detectSegments duration [] [] rms sr).map (fun s => (s.start, s.stop, s.type))
      = if 2 < duration then [(0, duration, "intro")] else [] := by
  have h1 : detectPhraseTimes duration [] []
      = postprocessFinal [0] (ensureEnd duration [0]) := rfl
  have h2 : ensureEnd duration [0] = if 0 < duration - 2 then [0, duration] else [0] := rfl
  by_cases hdur : 2 < duration
  · have hcond : 0 < duration - 2 := by linarith
    have hne : (0 : ℚ) ≠ duration := by linarith
    have hle : (0:ℚ) ≤ duration := by linarith
    have hpts : detectPhraseTimes duration [] [] = [0, duration] := by
      rw [h1, h2, if_pos hcond]
      have e1 : postprocessTimes [0] ([0, duration] : List ℚ)
          = (0 :: gapSplits [0] 0 duration) ++ [duration] := rfl
      have e2 : gapSplits [0] 0 duration = [] := by
        unfold gapSplits
        rw [if_neg (by simp only [sub_zero]; linarith)]
      have e12 : postprocessTimes [0] ([0, duration] : List ℚ) = [0, duration] := by
        rw [e1, e2]
        rfl
      have hdedup : ([0, duration] : List ℚ).dedup = [0, duration] :=
        List.Nodup.dedup (by simp [hne])
      have e4 : List.insertionSort (fun x1 x2 => x1 ≤ x2) ([0, duration] : List ℚ)
          = [0, duration] := by
        simp [List.insertionSort, List.orderedInsert, hle]
      unfold postprocessFinal
      rw [e12, hdedup, e4]
    unfold detectSegments zipSegs
    rw [hpts, if_pos hdur]
    simp only [List.zip_cons_cons, List.tail_cons, List.zip_nil_right, List.map_cons,
      List.map_nil]
    have htype : (mkSegment rms sr duration 0 duration).type = "intro" := by
      unfold mkSegment classify_segment
      simp only [zero_div]
      rw [if_pos (by norm_num : (0:ℚ) < 1/10)]
    have hstart : (mkSegment rms sr duration 0 duration).start = 0 := rfl
    have hstop : (mkSegment rms sr duration 0 duration).stop = duration := rfl
    simp [hstart, hstop, htype]
  · have hcond : ¬(0 < duration - 2) := by linarith
    have hpts : detectPhraseTimes duration [] [] = [0] := by
      rw [h1, h2, if_neg hcond]
      rfl
    unfold detectSegments zipSegs
    rw [hpts, if_neg hdur]
    rfl

/-- C7 witness: the amended statement at the concrete zero-beat track of
duration 10. -/
theorem C7_zero_beat_single_segment_w :
    (detectSegments 10 [] [] [] 22050).map (fun s => (s.start, s.stop, s.type))
      = [(0, 10, "intro")] := by
  have h := C7_zero_beat_single_segment 10 [] 22050 (by norm_num)
  rwa [if_pos (by norm_num : (2:ℚ) < 10)] at h

theorem findSucc_mem (pid nid : ℕ) :
    ∀ l : List PhraseNode, findSucc pid l = some nid → ∃ x ∈ l, x.id = nid
  | [], h => Option.noConfusion h
  | [_], h => Option.noConfusion h
  | a :: b :: rest, h => by
    rw [findSucc] at h
    split_ifs at h with ha
    · exact ⟨b, by simp, Option.some_inj.mp h⟩
    · obtain ⟨x, hx, hxid⟩ := findSucc_mem pid nid (b :: rest) h
      exact ⟨x, List.mem_cons_of_mem _ hx, hxid⟩

theorem findSucc_ne (pid nid : ℕ) :
    ∀ l : List PhraseNode, (l.map PhraseNode.id).Nodup →
      findSucc pid l = some nid → nid ≠ pid
  | [], _, h => Option.noConfusion h
  | [_], _, h => Option.noConfusion h
  | a :: b :: rest, hnd, h => by
    rw [findSucc] at h
    rw [List.map_cons, List.nodup_cons] at hnd
    split_ifs at h with ha
    · have hab : a.id ≠ b.id := by
        intro he
        exact hnd.1 (he ▸ List.mem_cons_self _ _)
      rw [← Option.some_inj.mp h, ← ha]
      exact fun he => hab he.symm
    · exact findSucc_ne pid nid (b :: rest) hnd.2 h

theorem trackPhrasesFor_subset (phrases : List PhraseNode) (track : String) :
    ∀ x ∈ trackPhrasesFor phrases track, x ∈ phrases := by
  intro x hx
  have hmem := (List.perm_insertionSort (fun a b => a.trackIndex ≤ b.trackIndex)
    (phrases.filter fun p => p.sourceTrack = track)).mem_iff.mp hx
  exact List.mem_of_mem_filter hmem

theorem trackPhrasesFor_ids_nodup (phrases : List PhraseNode) (track : String)
    (h : (phrases.map PhraseNode.id).Nodup) :
    ((trackPhrasesFor phrases track).map PhraseNode.id).Nodup := by
  have hperm := List.perm_insertionSort (fun a b => a.trackIndex ≤ b.trackIndex)
    (phrases.filter fun p => p.sourceTrack = track)
  have hsub : (phrases.filter fun p => p.sourceTrack = track).Sublist phrases :=
    List.filter_sublist _
  exact ((hperm.map PhraseNode.id).nodup_iff).mpr ((hsub.map PhraseNode.id).nodup h)

theorem candidateLink_orig (tps : List PhraseNode) (p p2 : PhraseNode) (nid : ℕ)
    (hsucc : findSucc p.id tps = some nid) (hne : ¬ p.id = p2.id) (hid : p2.id = nid) :
    ∃ l, candidateLink tps p p2 = some l ∧
      l.targetId = nid ∧ l.isOriginalSequence = true := by
  have horig : (match findSucc p.id tps with
      | some n => decide (n = p2.id)
      | none => false) = true := by
    rw [hsucc]
    simp [hid]
  simp only [candidateLink, if_neg hne, horig]
  rw [if_pos (Or.inl trivial)]
  exact ⟨_, rfl, hid, rfl⟩

theorem candidateLink_orig_target (tps : List PhraseNode) (p p2 : PhraseNode)
    (nid : ℕ) (l : PhraseLink) (hsucc : findSucc p.id tps = some nid)
    (h : candidateLink tps p p2 = some l) (horig : l.isOriginalSequence = true) :
    l.targetId = nid := by
  simp only [candidateLink, hsucc] at h
  split_ifs at h with h1 h2
  · obtain rfl := Option.some_inj.mp h
    simp only [] at horig
    have : nid = p2.id := of_decide_eq_true horig
    rw [this]

/-- C2: after `compute_all_links`, every phrase carries at most
`MAX_LINKS_PER_PHRASE` (20) links, and whenever the phrase has an immediate
successor in its source track (by `trackIndex` order) a link to that
successor marked `isOriginalSequence = true` is present — the original
sequence candidate is exempt from the weight filter and always sorts first,
so the truncation to 20 never drops it. -/
theorem C2_links_cap_and_original (phrases : List PhraseNode)
    (hids : (phrases.map PhraseNode.id).Nodup)
    (p' : PhraseNode) (hp' : p' ∈ compute_all_links phrases) :
    p'.links.length ≤ MAX_LINKS_PER_PHRASE ∧
    ∀ nid, findSucc p'.id (trackPhrasesFor phrases p'.sourceTrack) = some nid →
      ∃ l ∈ p'.links, l.targetId = nid ∧ l.isOriginalSequence = true := by
  obtain ⟨p, hp, rfl⟩ := List.mem_map.mp hp'
  constructor
  · show (computeLinksFor phrases p).length ≤ MAX_LINKS_PER_PHRASE
    unfold computeLinksFor
    exact List.length_take_le _ _
  · intro nid hsucc
    show ∃ l ∈ computeLinksFor phrases p, l.targetId = nid ∧ l.isOriginalSequence = true
    have hsucc' : findSucc p.id (trackPhrasesFor phrases p.sourceTrack) = some nid := hsucc
    obtain ⟨p2, hp2tps, hp2id⟩ := findSucc_mem p.id nid _ hsucc'
    have hp2 : p2 ∈ phrases := trackPhrasesFor_subset phrases p.sourceTrack p2 hp2tps
    have hnidne : nid ≠ p.id :=
      findSucc_ne p.id nid _ (trackPhrasesFor_ids_nodup phrases _ hids) hsucc'
    have hne : ¬ p.id = p2.id := fun he => hnidne (hp2id ▸ he.symm)
    obtain ⟨l0, hl0eq, hl0t, hl0o⟩ :=
      candidateLink_orig (trackPhrasesFor phrases p.sourceTrack) p p2 nid hsucc' hne hp2id
    set cands := phrases.filterMap
      (candidateLink (trackPhrasesFor phrases p.sourceTrack) p) with hcands
    have hl0mem : l0 ∈ cands := List.mem_filterMap.mpr ⟨p2, hp2, hl0eq⟩
    have hall : ∀ l ∈ cands, l.isOriginalSequence = true → l.targetId = nid := by
      intro l hl horig
      obtain ⟨p2', _, hcand⟩ := List.mem_filterMap.mp hl
      exact candidateLink_orig_target _ p p2' nid l hsucc' hcand horig
    -- the sorted candidate list starts with an original-sequence link
    have hperm := List.perm_insertionSort linkLE cands
    have hsorted := List.sorted_insertionSort linkLE cands
    have hl0sorted : l0 ∈ List.insertionSort linkLE cands := hperm.mem_iff.mpr hl0mem
    show ∃ l ∈ (List.insertionSort linkLE cands).take MAX_LINKS_PER_PHRASE,
      l.targetId = nid ∧ l.isOriginalSequence = true
    have hne' : List.insertionSort linkLE cands ≠ [] := List.ne_nil_of_mem hl0sorted
    set h0 := (List.insertionSort linkLE cands).head hne' with hh0
    have hcons : List.insertionSort linkLE cands
        = h0 :: (List.insertionSort linkLE cands).tail :=
      (List.head_cons_tail _ hne').symm
    rw [hcons] at hl0sorted hsorted
    have hh0orig : h0.isOriginalSequence = true := by
      rcases List.mem_cons.mp hl0sorted with rfl | hl0t'
      · exact hl0o
      · by_contra hh0
        have hle := List.rel_of_sorted_cons hsorted l0 hl0t'
        rw [linkLE, linkKey, linkKey] at hle
        rw [Bool.not_eq_true] at hh0
        rw [hh0, hl0o] at hle
        norm_num at hle
    have hh0mem : h0 ∈ cands :=
      hperm.mem_iff.mp (hcons ▸ List.mem_cons_self h0 _)
    refine ⟨h0, ?_, hall h0 hh0mem hh0orig, hh0orig⟩
    rw [hcons]
    show h0 ∈ (h0 :: (List.insertionSort linkLE cands).tail).take 20
    rw [show (20 : ℕ) = 19 + 1 from rfl, List.take_succ_cons]
    exact List.mem_cons_self _ _

/-- Fixture phrases for concrete evaluations: two consecutive phrases of one
track. -/
def wPhrase1 : PhraseNode :=
  { id := 1, sourceTrack := "t", sourceTrackName := "t", trackIndex := 0
    audioFile := "t", tempo := 120, key := some "C", energy := 1/2
    spectralCentroid := 1000, segmentType := "verse", duration := 10
    startTime := 0, endTime := 10, beats := [], downbeats := [], links := [] }

def wPhrase2 : PhraseNode :=
  { wPhrase1 with id := 2, trackIndex := 1, startTime := 10, endTime := 20 }

def wPhrases : List PhraseNode := [wPhrase1, wPhrase2]

/-- C2 witness: in the two-phrase fixture the first phrase's computed links
contain the original-sequence link to the second phrase. -/
theorem C2_links_cap_and_original_w :
    ∃ l ∈ ({ wPhrase1 with links := computeLinksFor wPhrases wPhrase1 } : PhraseNode).links,
      l.targetId = 2 ∧ l.isOriginalSequence = true :=
  (C2_links_cap_and_original wPhrases (by decide)
    { wPhrase1 with links := computeLinksFor wPhrases wPhrase1 }
    (by decide)).2 2 (by decide)

theorem everyNth_subset (n : ℕ) (xs : List ℚ) : ∀ x ∈ everyNth n xs, x ∈ xs := by
  intro x hx
  unfold everyNth at hx
  obtain ⟨⟨i, y⟩, hmem, rfl⟩ := List.mem_map.mp hx
  have h1 := List.mem_of_mem_filter hmem
  rw [List.enum_eq_zip_range] at h1
  exact (List.of_mem_zip h1).2

theorem nearestIn_mem (xs : List ℚ) (t : ℚ) (hne : xs ≠ []) : nearestIn xs t ∈ xs := by
  match xs with
  | [] => exact absurd rfl hne
  | x :: rest =>
    unfold nearestIn
    have key : ∀ (l : List ℚ) (best : ℚ),
        l.foldl (fun best c => if |c - t| < |best - t| then c else best) best
          ∈ best :: l := by
      intro l
      induction l with
      | nil => intro best; simp
      | cons c l ih =>
        intro best
        rw [List.foldl_cons]
        rcases List.mem_cons.mp (ih (if |c - t| < |best - t| then c else best)) with h | h
        · rw [h]
          split_ifs <;> simp
        · exact List.mem_cons_of_mem _ (List.mem_cons_of_mem _ h)
    exact key rest x

theorem addPeak_mem (downbeats bs : List ℚ) (t z : ℚ) (hz : z ∈ addPeak downbeats bs t) :
    z ∈ bs ∨ z = t ∨ z ∈ downbeats := by
  simp only [addPeak] at hz
  split_ifs at hz with h1 h2 h3
  · rcases List.mem_append.mp hz with h | h
    · exact Or.inl h
    · rw [List.mem_singleton] at h
      subst h
      exact Or.inr (Or.inr (nearestIn_mem downbeats t (List.length_pos.mp h2)))
  · rcases List.mem_append.mp hz with h | h
    · exact Or.inl h
    · exact Or.inr (Or.inl (List.mem_singleton.mp h))
  · rcases List.mem_append.mp hz with h | h
    · exact Or.inl h
    · exact Or.inr (Or.inl (List.mem_singleton.mp h))
  · exact Or.inl hz

theorem foldl_addPeak_mem (downbeats : List ℚ) :
    ∀ (peaks init : List ℚ) (z : ℚ), z ∈ peaks.foldl (addPeak downbeats) init →
      z ∈ init ∨ z ∈ peaks ∨ z ∈ downbeats
  | [], _, _, hz => Or.inl hz
  | t :: peaks, init, z, hz => by
    rw [List.foldl_cons] at hz
    rcases foldl_addPeak_mem downbeats peaks (addPeak downbeats init t) z hz with h | h | h
    · rcases addPeak_mem downbeats init t z h with h' | h' | h'
      · exact Or.inl h'
      · exact Or.inr (Or.inl (h' ▸ List.mem_cons_self _ _))
      · exact Or.inr (Or.inr h')
    · exact Or.inr (Or.inl (List.mem_cons_of_mem _ h))
    · exact Or.inr (Or.inr h)

theorem mem_ensureStart (pt : List ℚ) (z : ℚ) (hz : z ∈ ensureStart pt) :
    z = 0 ∨ z ∈ pt := by
  cases pt with
  | nil =>
    simp only [ensureStart] at hz
    exact Or.inl (List.mem_singleton.mp hz)
  | cons x rest =>
    simp only [ensureStart] at hz
    split_ifs at hz with h
    · rcases List.mem_cons.mp hz with h' | h'
      · exact Or.inl h'
      · exact Or.inr h'
    · exact Or.inr hz

theorem mem_ensureEnd (duration : ℚ) (pt : List ℚ) (z : ℚ) (hz : z ∈ ensureEnd duration pt) :
    z ∈ pt ∨ z = duration := by
  unfold ensureEnd at hz
  rcases hlast : pt.getLast? with _ | x
  · simp only [hlast] at hz
    exact Or.inl hz
  · simp only [hlast] at hz
    split_ifs at hz with h
    · rcases List.mem_append.mp hz with h' | h'
      · exact Or.inl h'
      · exact Or.inr (List.mem_singleton.mp h')
    · exact Or.inl hz

theorem ensureStart_ne_nil (pt : List ℚ) : ensureStart pt ≠ [] := by
  cases pt with
  | nil => simp [ensureStart]
  | cons x rest =>
    simp only [ensureStart]
    split_ifs <;> simp

theorem ensureStart_head (pt : List ℚ) :
    ∃ h0, (ensureStart pt).head? = some h0 ∧ h0 ≤ 2 := by
  cases pt with
  | nil => exact ⟨0, rfl, by norm_num⟩
  | cons x rest =>
    simp only [ensureStart]
    split_ifs with h
    · exact ⟨0, rfl, by norm_num⟩
    · exact ⟨x, rfl, le_of_not_lt h⟩

theorem ensureEnd_head? (duration : ℚ) (pt : List ℚ) (hne : pt ≠ []) :
    (ensureEnd duration pt).head? = pt.head? := by
  cases pt with
  | nil => exact absurd rfl hne
  | cons x rest =>
    unfold ensureEnd
    rcases hlast : (x :: rest).getLast? with _ | y
    · simp only [hlast]
    · simp only [hlast]
      split_ifs with h
      · rw [List.cons_append, List.head?_cons, List.head?_cons]
      · rfl

theorem ensureEnd_getLast (duration : ℚ) (pt : List ℚ) (hne : pt ≠ []) :
    ∃ z0, (ensureEnd duration pt).getLast? = some z0 ∧ duration - 2 ≤ z0 := by
  cases pt with
  | nil => exact absurd rfl hne
  | cons x rest =>
    unfold ensureEnd
    have hgl : (x :: rest).getLast? = some ((x :: rest).getLast (by simp)) :=
      List.getLast?_eq_getLast _ _
    simp only [hgl]
    split_ifs with h
    · exact ⟨duration, List.getLast?_concat _, by linarith⟩
    · exact ⟨_, hgl, le_of_not_lt h⟩

theorem mem_of_getLast?_q : ∀ (l : List ℚ) (a : ℚ), l.getLast? = some a → a ∈ l
  | [], a, h => Option.noConfusion h
  | [x], a, h => by
    rw [List.getLast?_singleton] at h
    exact List.mem_singleton.mpr (Option.some_inj.mp h).symm
  | x :: y :: rest, a, h => by
    rw [List.getLast?_cons_cons] at h
    exact List.mem_cons_of_mem _ (mem_of_getLast?_q (y :: rest) a h)

theorem sorted_le_getLast : ∀ (l : List ℚ), l.Sorted (· ≤ ·) →
    ∀ (z : ℚ), l.getLast? = some z → ∀ a ∈ l, a ≤ z
  | [], _, _, h => Option.noConfusion h
  | [x], _, z, h => by
    rw [List.getLast?_singleton] at h
    intro a ha
    rw [List.mem_singleton.mp ha, Option.some_inj.mp h]
  | x :: y :: rest, hs, z, h => by
    rw [List.getLast?_cons_cons] at h
    intro a ha
    have hzmem : z ∈ y :: rest := mem_of_getLast?_q _ _ h
    rcases List.mem_cons.mp ha with rfl | ha'
    · exact le_trans (List.rel_of_sorted_cons hs z hzmem) le_rfl
    · exact sorted_le_getLast (y :: rest) hs.of_cons z h a ha'

theorem sorted_head_le (x : ℚ) (t : List ℚ) (hs : (x :: t).Sorted (· ≤ ·)) :
    ∀ a ∈ x :: t, x ≤ a := by
  intro a ha
  rcases List.mem_cons.mp ha with rfl | ha'
  · exact le_rfl
  · exact List.rel_of_sorted_cons hs a ha'

theorem subset_postprocess (downbeats : List ℚ) :
    ∀ pt : List ℚ, ∀ z ∈ pt, z ∈ postprocessTimes downbeats pt
  | [], z, hz => absurd hz (List.not_mem_nil z)
  | [x], z, hz => hz
  | x :: y :: rest, z, hz => by
    rw [postprocessTimes]
    rcases List.mem_cons.mp hz with rfl | hz'
    · exact List.mem_append.mpr (Or.inl (List.mem_cons_self _ _))
    · exact List.mem_append.mpr
        (Or.inr (subset_postprocess downbeats (y :: rest) z hz'))

theorem postprocess_mem (downbeats : List ℚ) :
    ∀ (pt : List ℚ) (z : ℚ), z ∈ postprocessTimes downbeats pt →
      z ∈ pt ∨ ∃ x y, (x, y) ∈ pt.zip pt.tail ∧ z ∈ gapSplits downbeats x y
  | [], z, hz => Or.inl hz
  | [x], z, hz => Or.inl hz
  | x :: y :: rest, z, hz => by
    rw [postprocessTimes] at hz
    rcases List.mem_append.mp hz with h | h
    · rcases List.mem_cons.mp h with rfl | h'
      · exact Or.inl (List.mem_cons_self _ _)
      · exact Or.inr ⟨x, y, by simp, h'⟩
    · rcases postprocess_mem downbeats (y :: rest) z h with h' | ⟨x', y', hxy, hz'⟩
      · exact Or.inl (List.mem_cons_of_mem _ h')
      · exact Or.inr ⟨x', y', List.mem_cons_of_mem _ hxy, hz'⟩

theorem gapSplits_mem_bounds (downbeats : List ℚ) (x y z : ℚ)
    (hz : z ∈ gapSplits downbeats x y) : x < z ∧ z < y := by
  unfold gapSplits at hz
  by_cases hgap : y - x > 30
  swap
  · rw [if_neg hgap] at hz
    exact absurd hz (List.not_mem_nil z)
  rw [if_pos hgap] at hz
  obtain ⟨j, hj, rfl⟩ := List.mem_map.mp hz
  obtain ⟨hj1, hj2⟩ := List.mem_range'_1.mp hj
  set gap : ℚ := y - x with hgapdef
  set n : ℕ := (gap / 15).floor.toNat with hn
  have hfl : (2 : ℤ) ≤ (gap / 15).floor := by
    rw [Rat.le_floor]
    push_cast
    rw [le_div_iff₀ (by norm_num : (0:ℚ) < 15)]
    linarith
  have hn2 : 2 ≤ n := by omega
  have hnq : (0:ℚ) < (n : ℚ) := by
    have : (2:ℚ) ≤ (n:ℚ) := by exact_mod_cast hn2
    linarith
  have h15 : 15 * (n : ℚ) ≤ gap := by
    have hnz : ((n : ℤ)) = (gap / 15).floor := by
      rw [hn]
      exact Int.toNat_of_nonneg (by omega)
    have hle : ((n : ℤ) : ℚ) ≤ gap / 15 := Rat.le_floor.mp (le_of_eq hnz)
    rw [le_div_iff₀ (by norm_num : (0:ℚ) < 15)] at hle
    push_cast at hle
    linarith
  set s : ℚ := gap / (n : ℚ) with hs
  have hsn : s * (n:ℚ) = gap := by
    rw [hs]
    field_simp
  have hstep : 15 ≤ s := by
    by_contra hcon
    push_neg at hcon
    nlinarith
  have hraw : x + gap * (j : ℚ) / (n : ℚ) = x + (j : ℚ) * s := by
    rw [hs]
    ring
  have hsnap := abs_lt.mp (snapSplit_close downbeats (x + gap * (j : ℚ) / (n : ℚ)))
  rw [hraw] at hsnap
  have hjq1 : (1 : ℚ) ≤ (j : ℚ) := by exact_mod_cast hj1
  have hjq2 : (j : ℚ) ≤ (n : ℚ) - 1 := by
    have hjn : j < n := by omega
    have : (j : ℚ) + 1 ≤ (n : ℚ) := by exact_mod_cast hjn
    linarith
  have hlowmul : s ≤ (j : ℚ) * s := by
    nlinarith [mul_nonneg (by linarith : (0:ℚ) ≤ (j:ℚ) - 1) (by linarith : (0:ℚ) ≤ s)]
  have hhighmul : (j : ℚ) * s ≤ ((n:ℚ) - 1) * s := by
    nlinarith [mul_nonneg (by linarith : (0:ℚ) ≤ (n:ℚ) - 1 - j)
      (by linarith : (0:ℚ) ≤ s)]
  have hb : x + gap = y := by rw [hgapdef]; ring
  rw [hraw]
  constructor
  · nlinarith [hsnap.1]
  · nlinarith [hsnap.2]

theorem zip_tail_mem (pts : List ℚ) (p : ℚ × ℚ) (hp : p ∈ pts.zip pts.tail) :
    p.1 ∈ pts ∧ p.2 ∈ pts := by
  obtain ⟨h1, h2⟩ := List.of_mem_zip (show (p.1, p.2) ∈ pts.zip pts.tail from hp)
  exact ⟨h1, List.mem_of_mem_tail h2⟩

theorem zip_tail_lt : ∀ pts : List ℚ, pts.Pairwise (· < ·) →
    ∀ p ∈ pts.zip pts.tail, p.1 < p.2
  | [], _, p, hp => absurd hp (by simp)
  | [x], _, p, hp => absurd hp (by simp)
  | x :: y :: rest, hpw, p, hp => by
    rw [show (x :: y :: rest).zip (x :: y :: rest).tail
        = (x, y) :: (y :: rest).zip rest from rfl] at hp
    rcases List.mem_cons.mp hp with rfl | hp'
    · exact (List.pairwise_cons.mp hpw).1 y (List.mem_cons_self _ _)
    · exact zip_tail_lt (y :: rest) (List.pairwise_cons.mp hpw).2 p hp'

theorem zipSegs_chain (rms : List ℚ) (sr duration : ℚ) :
    ∀ pts : List ℚ,
      List.Chain' (fun s1 s2 => s1.stop = s2.start) (zipSegs rms sr duration pts)
  | [] => by simp [zipSegs]
  | [x] => by simp [zipSegs]
  | x :: y :: rest => by
    have ih := zipSegs_chain rms sr duration (y :: rest)
    cases rest with
    | nil => simp [zipSegs]
    | cons z rest' =>
      have hcons : zipSegs rms sr duration (x :: y :: z :: rest')
          = mkSegment rms sr duration x y :: zipSegs rms sr duration (y :: z :: rest') := rfl
      have hcons2 : zipSegs rms sr duration (y :: z :: rest')
          = mkSegment rms sr duration y z :: zipSegs rms sr duration (z :: rest') := rfl
      rw [hcons, hcons2]
      rw [hcons2] at ih
      exact List.chain'_cons.mpr ⟨rfl, ih⟩

theorem zipSegs_head (rms : List ℚ) (sr duration : ℚ) (pts : List ℚ) (seg : Segment)
    (h : (zipSegs rms sr duration pts).head? = some seg) :
    ∃ x, pts.head? = some x ∧ seg.start = x := by
  match pts with
  | [] => exact Option.noConfusion h
  | [x] => exact Option.noConfusion h
  | x :: y :: rest =>
    rw [show zipSegs rms sr duration (x :: y :: rest)
        = mkSegment rms sr duration x y :: zipSegs rms sr duration (y :: rest) from rfl,
      List.head?_cons] at h
    exact ⟨x, rfl, by rw [← Option.some_inj.mp h]; rfl⟩

theorem zipSegs_getLast (rms : List ℚ) (sr duration : ℚ) :
    ∀ (pts : List ℚ) (seg : Segment),
      (zipSegs rms sr duration pts).getLast? = some seg →
      ∃ z, pts.getLast? = some z ∧ seg.stop = z
  | [], seg, h => Option.noConfusion h
  | [x], seg, h => Option.noConfusion h
  | [x, y], seg, h => by
    rw [show zipSegs rms sr duration [x, y] = [mkSegment rms sr duration x y] from rfl,
      List.getLast?_singleton] at h
    refine ⟨y, ?_, ?_⟩
    · rw [List.getLast?_cons_cons, List.getLast?_singleton]
    · rw [← Option.some_inj.mp h]
      rfl
  | x :: y :: z :: rest', seg, h => by
    have hcons : zipSegs rms sr duration (x :: y :: z :: rest')
        = mkSegment rms sr duration x y :: zipSegs rms sr duration (y :: z :: rest') := rfl
    have hcons2 : zipSegs rms sr duration (y :: z :: rest')
        = mkSegment rms sr duration y z :: zipSegs rms sr duration (z :: rest') := rfl
    rw [hcons, hcons2, List.getLast?_cons_cons, ← hcons2] at h
    obtain ⟨z0, hz0, hstop⟩ := zipSegs_getLast rms sr duration (y :: z :: rest') seg h
    refine ⟨z0, ?_, hstop⟩
    rw [List.getLast?_cons_cons]
    exact hz0

theorem postprocessFinal_sorted (dbs pt : List ℚ) :
    (postprocessFinal dbs pt).Pairwise (· < ·) := by
  unfold postprocessFinal
  have hs : (List.insertionSort (· ≤ ·) (postprocessTimes dbs pt).dedup).Sorted (· ≤ ·) :=
    List.sorted_insertionSort _ _
  have hn : (List.insertionSort (· ≤ ·) (postprocessTimes dbs pt).dedup).Nodup :=
    ((List.perm_insertionSort _ _).nodup_iff).mpr (List.nodup_dedup _)
  exact (List.Pairwise.and hs hn).imp fun h => lt_of_le_of_ne h.1 h.2

theorem postprocessFinal_mem (dbs pt : List ℚ) (z : ℚ) :
    z ∈ postprocessFinal dbs pt ↔ z ∈ postprocessTimes dbs pt := by
  unfold postprocessFinal
  rw [(List.perm_insertionSort _ _).mem_iff, List.mem_dedup]

theorem postprocess_bounds (dbs pt : List ℚ) (lo hi : ℚ)
    (hpt : ∀ z ∈ pt, lo ≤ z ∧ z ≤ hi) :
    ∀ z ∈ postprocessTimes dbs pt, lo ≤ z ∧ z ≤ hi := by
  intro z hz
  rcases postprocess_mem dbs pt z hz with h | ⟨x, y, hxy, hz'⟩
  · exact hpt z h
  · obtain ⟨hx, hy⟩ := zip_tail_mem pt (x, y) hxy
    obtain ⟨h1, h2⟩ := gapSplits_mem_bounds dbs x y z hz'
    exact ⟨le_of_lt (lt_of_le_of_lt (hpt x hx).1 h1),
           le_of_lt (lt_of_lt_of_le h2 (hpt y hy).2)⟩

theorem mem_of_head?_q (l : List ℚ) (a : ℚ) (h : l.head? = some a) : a ∈ l := by
  cases l with
  | nil => exact Option.noConfusion h
  | cons x t =>
    rw [List.head?_cons] at h
    rw [← Option.some_inj.mp h]
    exact List.mem_cons_self _ _

theorem pairwise_lt_head_le (a : ℚ) (t : List ℚ) (hpw : (a :: t).Pairwise (· < ·)) :
    ∀ z ∈ a :: t, a ≤ z := by
  intro z hz
  rcases List.mem_cons.mp hz with rfl | hz'
  · exact le_rfl
  · exact le_of_lt ((List.pairwise_cons.mp hpw).1 z hz')

theorem detect_structure_core (duration : ℚ) (dbs pt2 rms : List ℚ) (sr : ℚ)
    (hmem : ∀ z ∈ pt2, 0 ≤ z ∧ z ≤ duration)
    (hhead : ∃ h0, pt2.head? = some h0 ∧ h0 ≤ 2)
    (hlast : ∃ z0, pt2.getLast? = some z0 ∧ duration - 2 ≤ z0) :
    List.Chain' (fun s1 s2 => s1.stop = s2.start)
      (zipSegs rms sr duration (postprocessFinal dbs pt2)) ∧
    (∀ s ∈ zipSegs rms sr duration (postprocessFinal dbs pt2),
      s.start < s.stop ∧ 0 ≤ s.start ∧ s.stop ≤ duration) ∧
    (∀ s, (zipSegs rms sr duration (postprocessFinal dbs pt2)).head? = some s →
      s.start ≤ 2) ∧
    (∀ s, (zipSegs rms sr duration (postprocessFinal dbs pt2)).getLast? = some s →
      duration - 2 ≤ s.stop) := by
  have hpw : (postprocessFinal dbs pt2).Pairwise (· < ·) := postprocessFinal_sorted dbs pt2
  have hmemf : ∀ z ∈ postprocessFinal dbs pt2, 0 ≤ z ∧ z ≤ duration := fun z hz =>
    postprocess_bounds dbs pt2 0 duration hmem z ((postprocessFinal_mem dbs pt2 z).mp hz)
  refine ⟨zipSegs_chain rms sr duration _, ?_, ?_, ?_⟩
  · intro seg hseg
    unfold zipSegs at hseg
    obtain ⟨p, hpz, rfl⟩ := List.mem_map.mp hseg
    obtain ⟨hp1, hp2⟩ := zip_tail_mem _ p hpz
    exact ⟨zip_tail_lt _ hpw p hpz, (hmemf p.1 hp1).1, (hmemf p.2 hp2).2⟩
  · intro seg hseg
    obtain ⟨x, hx, hxstart⟩ := zipSegs_head rms sr duration _ seg hseg
    obtain ⟨h0, hh0, hh0le⟩ := hhead
    have hh0f : h0 ∈ postprocessFinal dbs pt2 :=
      (postprocessFinal_mem dbs pt2 h0).mpr
        (subset_postprocess dbs pt2 h0 (mem_of_head?_q pt2 h0 hh0))
    have hxle : x ≤ h0 := by
      rcases hfin : postprocessFinal dbs pt2 with _ | ⟨a, t⟩
      · rw [hfin] at hx
        exact Option.noConfusion hx
      · rw [hfin, List.head?_cons] at hx
        obtain rfl := Option.some_inj.mp hx
        rw [hfin] at hh0f hpw
        exact pairwise_lt_head_le _ _ hpw h0 hh0f
    rw [hxstart]
    linarith
  · intro seg hseg
    obtain ⟨z, hz, hzstop⟩ := zipSegs_getLast rms sr duration _ seg hseg
    obtain ⟨z0, hz0, hz0ge⟩ := hlast
    have hz0f : z0 ∈ postprocessFinal dbs pt2 :=
      (postprocessFinal_mem dbs pt2 z0).mpr
        (subset_postprocess dbs pt2 z0 (mem_of_getLast?_q pt2 z0 hz0))
    have hz0le : z0 ≤ z :=
      sorted_le_getLast (postprocessFinal dbs pt2) (hpw.imp fun h => le_of_lt h) z hz z0 hz0f
    rw [hzstop]
    linarith

/-- C1 (amended): for every track whose beat and novelty-peak times lie in
`[0, duration]`, the segment list is contiguous (each segment's end equals
the next segment's start) and the segments are non-overlapping (each has
`start < stop`) and lie within `[0, duration]`; however the union is
`[t0, tK]` rather than exactly `[0, duration)`: the first segment starts at
some `t0 ≤ 2` (equal to 0 only when the first merged boundary lies more than
2 s in) and the last segment ends at some `tK ≥ duration − 2` (equal to
`duration` only when the last merged boundary lies more than 2 s before the
end). -/
theorem C1_segments_structure (duration : ℚ) (beat_times novelty_peaks rms : List ℚ)
    (sr : ℚ) (hd : 0 ≤ duration)
    (hb : ∀ b ∈ beat_times, 0 ≤ b ∧ b ≤ duration)
    (hp : ∀ t ∈ novelty_peaks, 0 ≤ t ∧ t ≤ duration) :
    List.Chain' (fun s1 s2 => s1.stop = s2.start)
      (detectSegments duration beat_times novelty_peaks rms sr) ∧
    (∀ s ∈ detectSegments duration beat_times novelty_peaks rms sr,
      s.start < s.stop ∧ 0 ≤ s.start ∧ s.stop ≤ duration) ∧
    (∀ s, (detectSegments duration beat_times novelty_peaks rms sr).head? = some s →
      s.start ≤ 2) ∧
    (∀ s, (detectSegments duration beat_times novelty_peaks rms sr).getLast? = some s →
      duration - 2 ≤ s.stop) := by
  have hdbs : ∀ z ∈ downbeatsOf beat_times, 0 ≤ z ∧ z ≤ duration := by
    intro z hz
    unfold downbeatsOf at hz
    split_ifs at hz with h1 h2
    · exact hb z (everyNth_subset 4 beat_times z hz)
    · exact hb z hz
    · rw [List.mem_singleton] at hz
      subst hz
      exact ⟨le_rfl, hd⟩
  have hdetect : detectSegments duration beat_times novelty_peaks rms sr
      = zipSegs rms sr duration (postprocessFinal (downbeatsOf beat_times)
          (ensureEnd duration (ensureStart (List.insertionSort (· ≤ ·)
            ((novelty_peaks.foldl (addPeak (downbeatsOf beat_times))
              (everyNth (barsPerPhraseOf beat_times)
                (downbeatsOf beat_times))).dedup))))) := rfl
  rw [hdetect]
  apply detect_structure_core
  · intro z hz
    rcases mem_ensureEnd duration _ z hz with hz1 | rfl
    · rcases mem_ensureStart _ z hz1 with rfl | hz2
      · exact ⟨le_rfl, hd⟩
      · have hzM : z ∈ novelty_peaks.foldl (addPeak (downbeatsOf beat_times))
            (everyNth (barsPerPhraseOf beat_times) (downbeatsOf beat_times)) :=
          List.mem_dedup.mp ((List.perm_insertionSort _ _).mem_iff.mp hz2)
        rcases foldl_addPeak_mem (downbeatsOf beat_times) novelty_peaks _ z hzM
          with h | h | h
        · exact hdbs z (everyNth_subset _ _ z h)
        · exact hp z h
        · exact hdbs z h
    · exact ⟨hd, le_rfl⟩
  · obtain ⟨h0, hh, hle⟩ := ensureStart_head (List.insertionSort (· ≤ ·)
      ((novelty_peaks.foldl (addPeak (downbeatsOf beat_times))
        (everyNth (barsPerPhraseOf beat_times) (downbeatsOf beat_times))).dedup))
    refine ⟨h0, ?_, hle⟩
    rw [ensureEnd_head? duration _ (ensureStart_ne_nil _)]
    exact hh
  · exact ensureEnd_getLast duration _ (ensureStart_ne_nil _)

/-- C1 witness: the structural statement at the concrete track of duration
20 with beats at 1, 2, 3, 4 s. -/
theorem C1_segments_structure_w :
    (∀ s ∈ detectSegments 20 [1, 2, 3, 4] [] [] 22050,
      s.start < s.stop ∧ 0 ≤ s.start ∧ s.stop ≤ 20) ∧
    (∀ s, (detectSegments 20 [1, 2, 3, 4] [] [] 22050).head? = some s → s.start ≤ 2) := by
  have h := C1_segments_structure 20 [1, 2, 3, 4] [] [] 22050 (by norm_num)
    (by intro b hb; fin_cases hb <;> norm_num) (by intro t ht; exact absurd ht (by simp))
  exact ⟨h.2.1, h.2.2.1⟩

end MusicMill
